import Mathlib

/-!
Verification of the thread-safe hashmap in `ts_hashmap.c`.

The map is a fixed-capacity chained hash table guarded by one global mutex;
since every public operation holds the lock for its whole body, the
concurrent behaviour is the sequential behaviour of the critical sections,
which we embed here.  C `int` values are modelled as `Int`; the cast
`(unsigned int)k` is modelled as reduction modulo 2^32; `malloc` outcomes
are passed in as explicit booleans.  An entry chain is a `List` of
key/value records, a table is a `List` of chains.
-/

namespace TsHashmap

/-- C `INT_MAX`, the sentinel returned for "key not found". -/
def intMax : Int := 2 ^ 31 - 1

/-- modulus of the C type `unsigned int` (32-bit). -/
def uintMod : Int := 2 ^ 32

/-- conversion of a C `int` to `unsigned int`: reduce the value mod 2^32
(for in-range ints this is the reinterpretation of the bit pattern). -/
def toUInt (x : Int) : Nat := (x % uintMod).toNat

/-- `(unsigned int)key % map->capacity`: by the usual arithmetic
conversions the `int` capacity is also converted to `unsigned int`,
so the C expression is an unsigned modulo. -/
def bucketIndex (key capacity : Int) : Nat := toUInt key % toUInt capacity

/-- one chain node (`ts_entry_t`); the `next` pointer is the list structure. -/
structure ts_entry_t where
  key : Int
  value : Int
  deriving DecidableEq, Repr

/-- the map object (`ts_hashmap_t`); the mutex is not part of the
sequential state. -/
structure ts_hashmap_t where
  capacity : Int
  size : Int
  numOps : Int
  table : List (List ts_entry_t)
  deriving DecidableEq, Repr

/-- `initmap`: the three fallible steps (map `malloc`, table `malloc`,
`pthread_mutex_init`) are passed as booleans.  The table has `capacity`
slots, all `NULL`; the C code performs no validation of `capacity`, and
for a non-positive capacity the init loop runs zero times, giving a
zero-length table. -/
def initmap (capacity : Int) (mapAlloc tableAlloc lockInit : Bool) :
    Option ts_hashmap_t :=
  if mapAlloc = false then none
  else if tableAlloc = false then none
  else if lockInit = false then none
  else some { capacity := capacity, size := 0, numOps := 0,
              table := List.replicate capacity.toNat [] }

/-- the scan loop of `get`: value of the first entry whose key matches. -/
def scanGet (chain : List ts_entry_t) (key : Int) : Option Int :=
  match chain with
  | [] => none
  | e :: rest => if e.key = key then some e.value else scanGet rest key

/-- `get`: compute the bucket index, scan the chain, bump `numOps`,
return the found value or `INT_MAX`. -/
def get (map : ts_hashmap_t) (key : Int) : ts_hashmap_t × Int :=
  let index := bucketIndex key map.capacity
  match scanGet (map.table.getD index []) key with
  | some v => ({ map with numOps := map.numOps + 1 }, v)
  | none => ({ map with numOps := map.numOps + 1 }, intMax)

/-- the scan loop of `put`: if the key occurs, overwrite the value of its
first occurrence in place and report the old value; otherwise `none`. -/
def scanPut (chain : List ts_entry_t) (key value : Int) :
    Option (List ts_entry_t × Int) :=
  match chain with
  | [] => none
  | e :: rest =>
    if e.key = key then some ({ key := e.key, value := value } :: rest, e.value)
    else
      match scanPut rest key value with
      | some (rest2, old) => some (e :: rest2, old)
      | none => none

/-- `put`: overwrite the first matching entry, else (when the entry
`malloc` succeeds) push a new entry on the head of the chain and bump
`size`; `numOps` is bumped on every path, and the old value or `INT_MAX`
is returned. -/
def put (map : ts_hashmap_t) (key value : Int) (allocOk : Bool) :
    ts_hashmap_t × Int :=
  let index := bucketIndex key map.capacity
  let chain := map.table.getD index []
  match scanPut chain key value with
  | some (chain2, old) =>
    ({ map with table := map.table.set index chain2,
                numOps := map.numOps + 1 }, old)
  | none =>
    if allocOk then
      ({ map with
          table := map.table.set index ({ key := key, value := value } :: chain),
          size := map.size + 1, numOps := map.numOps + 1 }, intMax)
    else
      ({ map with numOps := map.numOps + 1 }, intMax)

/-- the pointer-to-pointer loop of `del`: splice out the first entry whose
key matches and report its value; `none` when the key is absent. -/
def scanDel (chain : List ts_entry_t) (key : Int) :
    Option (List ts_entry_t × Int) :=
  match chain with
  | [] => none
  | e :: rest =>
    if e.key = key then some (rest, e.value)
    else
      match scanDel rest key with
      | some (rest2, v) => some (e :: rest2, v)
      | none => none

/-- `del`: splice out the first matching entry, decrement `size` and
return its value; on a miss only `numOps` moves and `INT_MAX` comes back. -/
def del (map : ts_hashmap_t) (key : Int) : ts_hashmap_t × Int :=
  let index := bucketIndex key map.capacity
  match scanDel (map.table.getD index []) key with
  | some (chain2, v) =>
    ({ map with table := map.table.set index chain2, size := map.size - 1,
                numOps := map.numOps + 1 }, v)
  | none => ({ map with numOps := map.numOps + 1 }, intMax)

/-- one public operation, with the `malloc` outcome for `put`. -/
inductive MapOp where
  | opGet (key : Int)
  | opPut (key value : Int) (allocOk : Bool)
  | opDel (key : Int)
  deriving DecidableEq, Repr

/-- state reached after one completed operation. -/
def applyOp (m : ts_hashmap_t) (op : MapOp) : ts_hashmap_t :=
  match op with
  | .opGet k => (get m k).1
  | .opPut k v a => (put m k v a).1
  | .opDel k => (del m k).1

/-- state reached after a sequence of completed operations. -/
def applyOps (m : ts_hashmap_t) (ops : List MapOp) : ts_hashmap_t :=
  ops.foldl applyOp m

/-- keys of a chain, in chain order. -/
def chainKeys (chain : List ts_entry_t) : List Int := chain.map ts_entry_t.key

/-- all keys present in the map, bucket by bucket. -/
def mapKeys (m : ts_hashmap_t) : List Int := (m.table.map chainKeys).flatten

/-- the structural sanity a freshly created positive-capacity map has:
capacity is a positive C int and the table has `capacity` slots. -/
def tableOk (m : ts_hashmap_t) : Prop :=
  0 < m.capacity ∧ m.capacity ≤ intMax ∧ m.table.length = m.capacity.toNat

/-- full well-formedness: `tableOk`, every entry lies in the bucket its
key hashes to, and no chain repeats a key. -/
def wf (m : ts_hashmap_t) : Prop :=
  tableOk m ∧
  (∀ i, i < m.table.length →
    ∀ x ∈ chainKeys (m.table.getD i []), bucketIndex x m.capacity = i) ∧
  (∀ i, i < m.table.length → (chainKeys (m.table.getD i [])).Nodup)

instance (m : ts_hashmap_t) : Decidable (tableOk m) := by
  unfold tableOk
  infer_instance

instance (m : ts_hashmap_t) : Decidable (wf m) := by
  unfold wf
  infer_instance

/-! ### chain-level lemmas -/

theorem scanGet_eq_none {chain : List ts_entry_t} {key : Int} :
    scanGet chain key = none ↔ key ∉ chainKeys chain := by
  induction chain with
  | nil => simp [scanGet, chainKeys]
  | cons e rest ih =>
    by_cases h : e.key = key
    · simp [scanGet, chainKeys, h]
    · simp [scanGet, chainKeys, h, ih, Ne.symm h]

theorem scanGet_cons_self (e : ts_entry_t) (rest : List ts_entry_t) :
    scanGet (e :: rest) e.key = some e.value := by
  simp [scanGet]

theorem scanPut_eq_none {chain : List ts_entry_t} {key value : Int} :
    scanPut chain key value = none ↔ key ∉ chainKeys chain := by
  induction chain with
  | nil => simp [scanPut, chainKeys]
  | cons e rest ih =>
    by_cases h : e.key = key
    · simp [scanPut, chainKeys, h]
    · simp only [scanPut, chainKeys, List.map_cons, List.mem_cons, h, if_false]
      cases hrec : scanPut rest key value with
      | none =>
        simp [hrec, chainKeys, Ne.symm h] at ih ⊢
        exact ih
      | some p => simp [hrec, chainKeys] at ih ⊢; simp [ih]

theorem scanPut_some {chain chain2 : List ts_entry_t} {key value old : Int}
    (h : scanPut chain key value = some (chain2, old)) :
    scanGet chain2 key = some value ∧ chainKeys chain2 = chainKeys chain ∧
      scanGet chain key = some old := by
  induction chain generalizing chain2 with
  | nil => simp [scanPut] at h
  | cons e rest ih =>
    by_cases hk : e.key = key
    · simp only [scanPut, hk, if_true, eq_self_iff_true, Option.some.injEq,
        Prod.mk.injEq] at h
      obtain ⟨h1, h2⟩ := h
      subst h2
      refine ⟨?_, ?_, ?_⟩
      · rw [← h1]; simp [scanGet]
      · rw [← h1]; simp [chainKeys, hk]
      · simp [scanGet, hk]
    · simp only [scanPut, hk, if_false] at h
      cases hrec : scanPut rest key value with
      | none => rw [hrec] at h; simp at h
      | some p =>
        rw [hrec] at h
        obtain ⟨rest2, old2⟩ := p
        simp only [Option.some.injEq, Prod.mk.injEq] at h
        obtain ⟨h1, h2⟩ := h
        subst h2
        obtain ⟨g1, g2, g3⟩ := ih hrec
        constructor
        · rw [← h1]; simp [scanGet, hk, g1]
        · constructor
          · rw [← h1]; simp [chainKeys] at g2 ⊢; exact g2
          · simp [scanGet, hk, g3]

theorem scanPut_of_found {chain : List ts_entry_t} {key w : Int}
    (h : scanGet chain key = some w) (value : Int) :
    ∃ chain2, scanPut chain key value = some (chain2, w) := by
  induction chain with
  | nil => simp [scanGet] at h
  | cons e rest ih =>
    by_cases hk : e.key = key
    · simp only [scanGet, hk, if_true, eq_self_iff_true, Option.some.injEq] at h
      exact ⟨{ key := key, value := value } :: rest, by simp [scanPut, hk, h]⟩
    · simp only [scanGet, hk, if_false] at h
      obtain ⟨rest2, hrest⟩ := ih h
      exact ⟨e :: rest2, by simp [scanPut, hk, hrest]⟩

theorem scanDel_eq_none {chain : List ts_entry_t} {key : Int} :
    scanDel chain key = none ↔ key ∉ chainKeys chain := by
  induction chain with
  | nil => simp [scanDel, chainKeys]
  | cons e rest ih =>
    by_cases h : e.key = key
    · simp [scanDel, chainKeys, h]
    · simp only [scanDel, chainKeys, List.map_cons, List.mem_cons, h, if_false]
      cases hrec : scanDel rest key with
      | none =>
        simp [hrec, chainKeys, Ne.symm h] at ih ⊢
        exact ih
      | some p => simp [hrec, chainKeys] at ih ⊢; simp [ih]

theorem scanDel_sublist {chain chain2 : List ts_entry_t} {key v : Int}
    (h : scanDel chain key = some (chain2, v)) :
    List.Sublist (chainKeys chain2) (chainKeys chain) := by
  induction chain generalizing chain2 with
  | nil => simp [scanDel] at h
  | cons e rest ih =>
    by_cases hk : e.key = key
    · simp only [scanDel, hk, if_true, Option.some.injEq, Prod.mk.injEq] at h
      rw [← h.1]
      exact (List.sublist_cons_self _ _)
    · simp only [scanDel, hk, if_false] at h
      cases hrec : scanDel rest key with
      | none => rw [hrec] at h; simp at h
      | some p =>
        rw [hrec] at h
        obtain ⟨rest2, v2⟩ := p
        simp only [Option.some.injEq, Prod.mk.injEq] at h
        rw [← h.1]
        simpa [chainKeys] using List.Sublist.cons₂ e.key (by simpa [chainKeys] using ih (by rw [hrec, h.2]))

theorem scanDel_found {chain : List ts_entry_t} {key v : Int}
    (h : scanGet chain key = some v) :
    ∃ chain2, scanDel chain key = some (chain2, v) ∧
      ((chainKeys chain).Nodup → key ∉ chainKeys chain2) := by
  induction chain with
  | nil => simp [scanGet] at h
  | cons e rest ih =>
    by_cases hk : e.key = key
    · simp only [scanGet, hk, if_true, eq_self_iff_true, Option.some.injEq] at h
      refine ⟨rest, by simp [scanDel, hk, h], ?_⟩
      intro hnd
      simp only [chainKeys, List.map_cons, List.nodup_cons] at hnd
      simp only [chainKeys, List.mem_map]
      rintro ⟨x, hx, hxk⟩
      exact hnd.1 (List.mem_map.mpr ⟨x, hx, by rw [hxk, hk]⟩)
    · simp only [scanGet, hk, if_false] at h
      obtain ⟨rest2, hrest, hnd⟩ := ih h
      refine ⟨e :: rest2, by simp [scanDel, hk, hrest], ?_⟩
      intro hnodup
      simp only [chainKeys, List.map_cons, List.nodup_cons] at hnodup
      simp only [chainKeys, List.map_cons, List.mem_cons]
      push_neg
      refine ⟨Ne.symm hk, ?_⟩
      have h2 : (chainKeys rest).Nodup := by
        simpa [chainKeys] using hnodup.2
      exact hnd h2

/-! ### index and table helpers -/

/-- the bucket chain an operation on key `k` works on:
`map->table[(unsigned int)k % map->capacity]`. -/
def bucketOf (m : ts_hashmap_t) (k : Int) : List ts_entry_t :=
  m.table.getD (bucketIndex k m.capacity) []

theorem toUInt_of_pos {c : Int} (h1 : 0 < c) (h2 : c ≤ intMax) :
    toUInt c = c.toNat := by
  unfold toUInt uintMod
  rw [Int.emod_eq_of_lt (Int.le_of_lt h1)]
  exact lt_of_le_of_lt h2 (by norm_num [intMax])

theorem toUInt_pos {c : Int} (h1 : 0 < c) (h2 : c ≤ intMax) : 0 < toUInt c := by
  rw [toUInt_of_pos h1 h2]
  exact Int.lt_toNat.mpr h1

theorem bucketIndex_lt {k c : Int} (h1 : 0 < c) (h2 : c ≤ intMax) :
    bucketIndex k c < c.toNat := by
  unfold bucketIndex
  rw [← toUInt_of_pos h1 h2]
  exact Nat.mod_lt _ (toUInt_pos h1 h2)

theorem index_lt_length {m : ts_hashmap_t} (h : tableOk m) (k : Int) :
    bucketIndex k m.capacity < m.table.length := by
  rw [h.2.2]
  exact bucketIndex_lt h.1 h.2.1

theorem getD_set_self {α : Type} {l : List α} {i : Nat} (x d : α)
    (h : i < l.length) : (l.set i x).getD i d = x := by
  simp [List.getElem?_set_self h]

theorem getD_set_ne {α : Type} {l : List α} {i j : Nat} (x d : α)
    (h : i ≠ j) : (l.set i x).getD j d = l.getD j d := by
  simp [List.getElem?_set_ne h]

theorem not_mem_bucketOf {m : ts_hashmap_t} {k : Int} (h : k ∉ mapKeys m) :
    k ∉ chainKeys (bucketOf m k) := by
  by_cases hlt : bucketIndex k m.capacity < m.table.length
  · intro hmem
    apply h
    unfold mapKeys
    rw [List.mem_flatten]
    refine ⟨chainKeys (bucketOf m k), ?_, hmem⟩
    rw [List.mem_map]
    refine ⟨bucketOf m k, ?_, rfl⟩
    unfold bucketOf
    rw [List.getD_eq_getElem _ _ hlt]
    exact List.getElem_mem _
  · unfold bucketOf
    rw [List.getD_eq_default _ _ (Nat.le_of_not_lt hlt)]
    simp [chainKeys]

/-! ### shapes of the three operations -/

theorem get_fst (m : ts_hashmap_t) (k : Int) :
    (get m k).1 = { m with numOps := m.numOps + 1 } := by
  simp only [get]
  cases scanGet (m.table.getD (bucketIndex k m.capacity) []) k <;> rfl

theorem get_snd_of_found {m : ts_hashmap_t} {k v : Int}
    (h : scanGet (bucketOf m k) k = some v) : (get m k).2 = v := by
  simp only [get, bucketOf] at h ⊢
  rw [h]

theorem get_snd_of_miss {m : ts_hashmap_t} {k : Int}
    (h : k ∉ chainKeys (bucketOf m k)) : (get m k).2 = intMax := by
  simp only [get, bucketOf] at h ⊢
  rw [scanGet_eq_none.mpr h]

theorem put_overwrite {m : ts_hashmap_t} {k w : Int}
    (h : scanGet (bucketOf m k) k = some w) (v : Int) (a : Bool) :
    ∃ chain2, scanPut (bucketOf m k) k v = some (chain2, w) ∧
      (put m k v a).1 = { m with
        table := m.table.set (bucketIndex k m.capacity) chain2,
        numOps := m.numOps + 1 } ∧
      (put m k v a).2 = w := by
  obtain ⟨chain2, hscan⟩ := scanPut_of_found h v
  refine ⟨chain2, hscan, ?_, ?_⟩ <;>
    · simp only [put, bucketOf] at hscan ⊢
      rw [hscan]

theorem put_insert {m : ts_hashmap_t} {k : Int}
    (h : k ∉ chainKeys (bucketOf m k)) (v : Int) :
    (put m k v true).1 = { m with
      table := m.table.set (bucketIndex k m.capacity)
        ({ key := k, value := v } :: bucketOf m k),
      size := m.size + 1, numOps := m.numOps + 1 } ∧
    (put m k v true).2 = intMax := by
  have hs : scanPut (bucketOf m k) k v = none := scanPut_eq_none.mpr h
  simp only [put, bucketOf] at hs ⊢
  rw [hs]
  simp

theorem put_alloc_fail {m : ts_hashmap_t} {k : Int}
    (h : k ∉ chainKeys (bucketOf m k)) (v : Int) :
    (put m k v false).1 = { m with numOps := m.numOps + 1 } ∧
    (put m k v false).2 = intMax := by
  have hs : scanPut (bucketOf m k) k v = none := scanPut_eq_none.mpr h
  simp only [put, bucketOf] at hs ⊢
  rw [hs]
  simp

theorem del_found {m : ts_hashmap_t} {k : Int} {chain2 : List ts_entry_t}
    {v : Int} (h : scanDel (bucketOf m k) k = some (chain2, v)) :
    (del m k).1 = { m with
      table := m.table.set (bucketIndex k m.capacity) chain2,
      size := m.size - 1, numOps := m.numOps + 1 } ∧
    (del m k).2 = v := by
  simp only [del, bucketOf] at h ⊢
  rw [h]
  exact ⟨rfl, rfl⟩

theorem del_miss {m : ts_hashmap_t} {k : Int}
    (h : k ∉ chainKeys (bucketOf m k)) :
    (del m k).1 = { m with numOps := m.numOps + 1 } ∧
    (del m k).2 = intMax := by
  have hs : scanDel (bucketOf m k) k = none := scanDel_eq_none.mpr h
  simp only [del, bucketOf] at hs ⊢
  rw [hs]
  exact ⟨rfl, rfl⟩

theorem put_shape_some {m : ts_hashmap_t} {k v : Int} {chain2 : List ts_entry_t}
    {old : Int} (a : Bool)
    (h : scanPut (m.table.getD (bucketIndex k m.capacity) []) k v =
      some (chain2, old)) :
    (put m k v a).1 = { m with
      table := m.table.set (bucketIndex k m.capacity) chain2,
      numOps := m.numOps + 1 } := by
  simp only [put]
  rw [h]

theorem put_shape_insert {m : ts_hashmap_t} {k v : Int}
    (h : scanPut (m.table.getD (bucketIndex k m.capacity) []) k v = none) :
    (put m k v true).1 = { m with
      table := m.table.set (bucketIndex k m.capacity)
        ({ key := k, value := v } :: m.table.getD (bucketIndex k m.capacity) []),
      size := m.size + 1, numOps := m.numOps + 1 } := by
  simp only [put]
  rw [h]
  rfl

theorem put_shape_nofit {m : ts_hashmap_t} {k v : Int}
    (h : scanPut (m.table.getD (bucketIndex k m.capacity) []) k v = none) :
    (put m k v false).1 = { m with numOps := m.numOps + 1 } := by
  simp only [put]
  rw [h]
  rfl

theorem del_shape_some {m : ts_hashmap_t} {k : Int} {chain2 : List ts_entry_t}
    {v : Int}
    (h : scanDel (m.table.getD (bucketIndex k m.capacity) []) k =
      some (chain2, v)) :
    (del m k).1 = { m with
      table := m.table.set (bucketIndex k m.capacity) chain2,
      size := m.size - 1, numOps := m.numOps + 1 } := by
  simp only [del]
  rw [h]

theorem del_shape_none {m : ts_hashmap_t} {k : Int}
    (h : scanDel (m.table.getD (bucketIndex k m.capacity) []) k = none) :
    (del m k).1 = { m with numOps := m.numOps + 1 } := by
  simp only [del]
  rw [h]

theorem put_numOps (m : ts_hashmap_t) (k v : Int) (a : Bool) :
    (put m k v a).1.numOps = m.numOps + 1 := by
  simp only [put]
  cases scanPut (m.table.getD (bucketIndex k m.capacity) []) k v with
  | some p => rfl
  | none => cases a <;> rfl

theorem put_capacity (m : ts_hashmap_t) (k v : Int) (a : Bool) :
    (put m k v a).1.capacity = m.capacity := by
  simp only [put]
  cases scanPut (m.table.getD (bucketIndex k m.capacity) []) k v with
  | some p => rfl
  | none => cases a <;> rfl

theorem put_table_length (m : ts_hashmap_t) (k v : Int) (a : Bool) :
    (put m k v a).1.table.length = m.table.length := by
  simp only [put]
  cases scanPut (m.table.getD (bucketIndex k m.capacity) []) k v with
  | some p => simp
  | none => cases a <;> simp

theorem del_numOps (m : ts_hashmap_t) (k : Int) :
    (del m k).1.numOps = m.numOps + 1 := by
  simp only [del]
  cases scanDel (m.table.getD (bucketIndex k m.capacity) []) k with
  | some p => rfl
  | none => rfl

theorem del_capacity (m : ts_hashmap_t) (k : Int) :
    (del m k).1.capacity = m.capacity := by
  simp only [del]
  cases scanDel (m.table.getD (bucketIndex k m.capacity) []) k with
  | some p => rfl
  | none => rfl

theorem del_table_length (m : ts_hashmap_t) (k : Int) :
    (del m k).1.table.length = m.table.length := by
  simp only [del]
  cases scanDel (m.table.getD (bucketIndex k m.capacity) []) k with
  | some p => simp
  | none => simp

/-! ### preservation of well-formedness -/

theorem wf_initmap {cap : Int} (h1 : 0 < cap) (h2 : cap ≤ intMax)
    {a b c : Bool} {m0 : ts_hashmap_t}
    (h : initmap cap a b c = some m0) : wf m0 := by
  cases a <;> cases b <;> cases c <;> simp [initmap] at h
  subst h
  refine ⟨⟨h1, h2, by simp⟩, ?_, ?_⟩
  · intro i hi x hx
    rw [List.getD_eq_getElem _ _ hi] at hx
    simp [chainKeys] at hx
  · intro i hi
    rw [List.getD_eq_getElem _ _ hi]
    simp [chainKeys]

theorem wf_get {m : ts_hashmap_t} (h : wf m) (k : Int) : wf ((get m k).1) := by
  rw [get_fst]
  exact h

theorem wf_put {m : ts_hashmap_t} (h : wf m) (k v : Int) (a : Bool) :
    wf ((put m k v a).1) := by
  have hlt := index_lt_length h.1 k
  cases hscan : scanPut (m.table.getD (bucketIndex k m.capacity) []) k v with
  | some p =>
    obtain ⟨chain2, old⟩ := p
    obtain ⟨g1, g2, g3⟩ := scanPut_some hscan
    rw [put_shape_some a hscan]
    refine ⟨⟨h.1.1, h.1.2.1, by simp [h.1.2.2]⟩, ?_, ?_⟩
    · intro i hi x hx
      simp only [List.length_set] at hi
      by_cases hij : bucketIndex k m.capacity = i
      · subst hij
        rw [getD_set_self _ _ hlt, g2] at hx
        exact h.2.1 _ hi x hx
      · rw [getD_set_ne _ _ hij] at hx
        exact h.2.1 _ hi x hx
    · intro i hi
      simp only [List.length_set] at hi
      by_cases hij : bucketIndex k m.capacity = i
      · subst hij
        rw [getD_set_self _ _ hlt, g2]
        exact h.2.2 _ hi
      · rw [getD_set_ne _ _ hij]
        exact h.2.2 _ hi
  | none =>
    cases a with
    | false =>
      rw [put_shape_nofit hscan]
      exact ⟨h.1, h.2.1, h.2.2⟩
    | true =>
      have hk : k ∉ chainKeys (m.table.getD (bucketIndex k m.capacity) []) :=
        scanPut_eq_none.mp hscan
      rw [put_shape_insert hscan]
      refine ⟨⟨h.1.1, h.1.2.1, by simp [h.1.2.2]⟩, ?_, ?_⟩
      · intro i hi x hx
        simp only [List.length_set] at hi
        by_cases hij : bucketIndex k m.capacity = i
        · subst hij
          rw [getD_set_self _ _ hlt] at hx
          simp only [chainKeys, List.map_cons, List.mem_cons] at hx
          rcases hx with hx | hx
          · subst hx
            rfl
          · exact h.2.1 _ hi x (by simpa [chainKeys] using hx)
        · rw [getD_set_ne _ _ hij] at hx
          exact h.2.1 _ hi x hx
      · intro i hi
        simp only [List.length_set] at hi
        by_cases hij : bucketIndex k m.capacity = i
        · subst hij
          rw [getD_set_self _ _ hlt]
          simp only [chainKeys, List.map_cons, List.nodup_cons]
          exact ⟨by simpa [chainKeys] using hk,
            by simpa [chainKeys] using h.2.2 _ hi⟩
        · rw [getD_set_ne _ _ hij]
          exact h.2.2 _ hi

theorem wf_del {m : ts_hashmap_t} (h : wf m) (k : Int) : wf ((del m k).1) := by
  have hlt := index_lt_length h.1 k
  cases hscan : scanDel (m.table.getD (bucketIndex k m.capacity) []) k with
  | none =>
    rw [del_shape_none hscan]
    exact ⟨h.1, h.2.1, h.2.2⟩
  | some p =>
    obtain ⟨chain2, v⟩ := p
    have hsub := scanDel_sublist hscan
    rw [del_shape_some hscan]
    refine ⟨⟨h.1.1, h.1.2.1, by simp [h.1.2.2]⟩, ?_, ?_⟩
    · intro i hi x hx
      simp only [List.length_set] at hi
      by_cases hij : bucketIndex k m.capacity = i
      · subst hij
        rw [getD_set_self _ _ hlt] at hx
        exact h.2.1 _ hi x (hsub.subset hx)
      · rw [getD_set_ne _ _ hij] at hx
        exact h.2.1 _ hi x hx
    · intro i hi
      simp only [List.length_set] at hi
      by_cases hij : bucketIndex k m.capacity = i
      · subst hij
        rw [getD_set_self _ _ hlt]
        exact List.Nodup.sublist hsub (h.2.2 _ hi)
      · rw [getD_set_ne _ _ hij]
        exact h.2.2 _ hi

theorem wf_applyOp {m : ts_hashmap_t} (h : wf m) (op : MapOp) :
    wf (applyOp m op) := by
  cases op with
  | opGet k => exact wf_get h k
  | opPut k v a => exact wf_put h k v a
  | opDel k => exact wf_del h k

theorem wf_applyOps {m : ts_hashmap_t} (h : wf m) (ops : List MapOp) :
    wf (applyOps m ops) := by
  induction ops generalizing m with
  | nil => exact h
  | cons op rest ih => exact ih (wf_applyOp h op)

theorem wf_mapKeys_nodup {m : ts_hashmap_t} (h : wf m) :
    (mapKeys m).Nodup := by
  unfold mapKeys
  rw [List.nodup_flatten]
  constructor
  · intro s hs
    rw [List.mem_map] at hs
    obtain ⟨chain, hchain, rfl⟩ := hs
    obtain ⟨i, hi, rfl⟩ := List.mem_iff_getElem.mp hchain
    have hnd := h.2.2 i hi
    rw [List.getD_eq_getElem _ _ hi] at hnd
    exact hnd
  · rw [List.pairwise_iff_getElem]
    intro i j hi hj hij
    simp only [List.length_map] at hi hj
    rw [List.getElem_map, List.getElem_map]
    intro x hx1 hx2
    have e1 := h.2.1 i hi x (by rw [List.getD_eq_getElem _ _ hi]; exact hx1)
    have e2 := h.2.1 j hj x (by rw [List.getD_eq_getElem _ _ hj]; exact hx2)
    omega

/-! ### operation counting -/

theorem applyOp_numOps (m : ts_hashmap_t) (op : MapOp) :
    (applyOp m op).numOps = m.numOps + 1 := by
  cases op with
  | opGet k => rw [applyOp, get_fst]
  | opPut k v a => exact put_numOps m k v a
  | opDel k => exact del_numOps m k

theorem applyOps_numOps (m : ts_hashmap_t) (ops : List MapOp) :
    (applyOps m ops).numOps = m.numOps + ops.length := by
  induction ops generalizing m with
  | nil => simp [applyOps]
  | cons op rest ih =>
    have hstep : applyOps m (op :: rest) = applyOps (applyOp m op) rest := rfl
    rw [hstep, ih, applyOp_numOps]
    simp only [List.length_cons]
    push_cast
    ring

theorem tableOk_put {m : ts_hashmap_t} (h : tableOk m) (k v : Int) (a : Bool) :
    tableOk ((put m k v a).1) := by
  refine ⟨?_, ?_, ?_⟩
  · rw [put_capacity]; exact h.1
  · rw [put_capacity]; exact h.2.1
  · rw [put_table_length, put_capacity]; exact h.2.2

theorem put_found {m : ts_hashmap_t} (h : tableOk m) (k v : Int) :
    scanGet (bucketOf ((put m k v true).1) k) k = some v := by
  have hlt := index_lt_length h k
  cases hscan : scanPut (m.table.getD (bucketIndex k m.capacity) []) k v with
  | some p =>
    obtain ⟨chain2, old⟩ := p
    rw [put_shape_some true hscan]
    show scanGet ((m.table.set (bucketIndex k m.capacity) chain2).getD
      (bucketIndex k m.capacity) []) k = some v
    rw [getD_set_self _ _ hlt]
    exact (scanPut_some hscan).1
  | none =>
    rw [put_shape_insert hscan]
    show scanGet ((m.table.set (bucketIndex k m.capacity)
      ({ key := k, value := v } :: m.table.getD (bucketIndex k m.capacity) [])).getD
      (bucketIndex k m.capacity) []) k = some v
    rw [getD_set_self _ _ hlt]
    simp [scanGet]

/-! ### the claims -/

/-- C1: on any structurally sound map (as produced by a successful
`initmap` with positive capacity), `put(m, k, v)` immediately followed by
`get(m, k)` returns `v`, for every key and value. -/
theorem c1_put_get_round_trip (m : ts_hashmap_t) (k v : Int)
    (h : tableOk m) : (get ((put m k v true).1) k).2 = v :=
  get_snd_of_found (put_found h k v)

/-- C2 (refuted, code bug): `initmap` performs no capacity validation;
with every allocation succeeding, `initmap 0` returns a usable map with a
zero-length table instead of reporting failure. -/
theorem c2_initmap_accepts_nonpositive_capacity :
    initmap 0 true true true =
      some { capacity := 0, size := 0, numOps := 0, table := [] } := rfl

/-- C3: for every positive capacity `c` (a C int) and every in-range key
`k`, the bucket index `(unsigned int)k % c` computed by `get`, `put` and
`del` is the unsigned reinterpretation of `k` reduced mod `c`, hence lies
in `[0, c)`; for a negative key the unsigned reinterpretation is
`k + 2 ^ 32`, for a non-negative key it is `k` itself. -/
theorem c3_bucket_index_unsigned_mod (k c : Int) (h1 : 0 < c)
    (h2 : c ≤ intMax) (hk1 : -(2 ^ 31) ≤ k) (hk2 : k < 2 ^ 31) :
    bucketIndex k c = toUInt k % c.toNat ∧ bucketIndex k c < c.toNat ∧
      (k < 0 → toUInt k = (k + 2 ^ 32).toNat) ∧
      (0 ≤ k → toUInt k = k.toNat) := by
  refine ⟨?_, bucketIndex_lt h1 h2, ?_, ?_⟩
  · unfold bucketIndex
    rw [toUInt_of_pos h1 h2]
  · intro hneg
    unfold toUInt uintMod
    congr 1
    omega
  · intro hpos
    unfold toUInt uintMod
    congr 1
    omega

/-- C4: every completed `get`/`put`/`del` call increments `numOps` by
exactly one, and after any sequence of `N` completed calls on a freshly
created map, `numOps = N`. -/
theorem c4_numOps_counts_operations :
    (∀ (m : ts_hashmap_t) (op : MapOp),
      (applyOp m op).numOps = m.numOps + 1) ∧
    ∀ (cap : Int) (a b c : Bool) (m0 : ts_hashmap_t) (ops : List MapOp),
      initmap cap a b c = some m0 →
      (applyOps m0 ops).numOps = ops.length := by
  refine ⟨applyOp_numOps, ?_⟩
  intro cap a b c m0 ops hinit
  have h0 : m0.numOps = 0 := by
    cases a <;> cases b <;> cases c <;> simp [initmap] at hinit
    subst hinit
    rfl
  rw [applyOps_numOps, h0, zero_add]

/-- C5: on any structurally sound map, after `put(m, k, v1)` a second
`put(m, k, v2)` returns `v1`, a subsequent `get(m, k)` returns `v2`, and
the second `put` leaves `size` unchanged. -/
theorem c5_put_overwrite (m : ts_hashmap_t) (k v1 v2 : Int)
    (h : tableOk m) :
    (put ((put m k v1 true).1) k v2 true).2 = v1 ∧
    (get ((put ((put m k v1 true).1) k v2 true).1) k).2 = v2 ∧
    (put ((put m k v1 true).1) k v2 true).1.size =
      ((put m k v1 true).1).size := by
  have h1 : tableOk ((put m k v1 true).1) := tableOk_put h k v1 true
  have hf : scanGet (bucketOf ((put m k v1 true).1) k) k = some v1 :=
    put_found h k v1
  obtain ⟨chain2, hscan, hshape, hret⟩ := put_overwrite hf v2 true
  exact ⟨hret, get_snd_of_found (put_found h1 k v2), by rw [hshape]⟩

/-- C6: on any well-formed map, after `put(m, k, v)` the call
`del(m, k)` returns `v`, a subsequent `get(m, k)` returns the `INT_MAX`
sentinel, and `size` decreases by exactly one across the delete. -/
theorem c6_put_delete_removes (m : ts_hashmap_t) (k v : Int) (h : wf m) :
    (del ((put m k v true).1) k).2 = v ∧
    (get ((del ((put m k v true).1) k).1) k).2 = intMax ∧
    (del ((put m k v true).1) k).1.size = ((put m k v true).1).size - 1 := by
  have hwf1 : wf ((put m k v true).1) := wf_put h k v true
  have hfound : scanGet (bucketOf ((put m k v true).1) k) k = some v :=
    put_found h.1 k v
  have hlt1 := index_lt_length hwf1.1 k
  have hnd : (chainKeys (bucketOf ((put m k v true).1) k)).Nodup :=
    hwf1.2.2 _ hlt1
  obtain ⟨chain2, hdel, hnotin⟩ := scanDel_found hfound
  obtain ⟨dshape, dret⟩ := del_found hdel
  refine ⟨dret, ?_, by rw [dshape]⟩
  apply get_snd_of_miss
  rw [dshape]
  show k ∉ chainKeys ((((put m k v true).1).table.set
    (bucketIndex k ((put m k v true).1).capacity) chain2).getD
    (bucketIndex k ((put m k v true).1).capacity) [])
  rw [getD_set_self _ _ hlt1]
  exact hnotin hnd

/-- C7: for every key absent from the map, `get` returns the sentinel and
changes neither `size` nor the table, `del` returns the sentinel and
changes neither `size` nor the table, and the sentinel is `INT_MAX`,
that is `2 ^ 31 - 1`. -/
theorem c7_miss_returns_sentinel (m : ts_hashmap_t) (k : Int)
    (h : k ∉ mapKeys m) :
    (get m k).2 = intMax ∧ (get m k).1.size = m.size ∧
    (get m k).1.table = m.table ∧
    (del m k).2 = intMax ∧ (del m k).1.size = m.size ∧
    (del m k).1.table = m.table ∧ intMax = 2 ^ 31 - 1 := by
  have hb := not_mem_bucketOf h
  obtain ⟨d1, d2⟩ := del_miss hb
  refine ⟨get_snd_of_miss hb, ?_, ?_, d2, ?_, ?_, rfl⟩
  · rw [get_fst]
  · rw [get_fst]
  · rw [d1]
  · rw [d1]

/-- C8: when the entry allocation inside `put` fails on an absent key,
the call still returns the sentinel and increments `numOps` by exactly
one, while `size` and the whole table are left unchanged. -/
theorem c8_put_allocation_failure (m : ts_hashmap_t) (k v : Int)
    (h : k ∉ mapKeys m) :
    (put m k v false).2 = intMax ∧
    (put m k v false).1.numOps = m.numOps + 1 ∧
    (put m k v false).1.size = m.size ∧
    (put m k v false).1.table = m.table := by
  have hb := not_mem_bucketOf h
  obtain ⟨p1, p2⟩ := put_alloc_fail hb v
  exact ⟨p2, by rw [p1], by rw [p1], by rw [p1]⟩

/-- C9: starting from any successfully created map of positive capacity,
after any sequence of `get`/`put`/`del` operations every key occurs at
most once over all bucket chains together: no duplicates within a chain
and no key in two chains. -/
theorem c9_no_duplicate_keys (cap : Int) (h1 : 0 < cap)
    (h2 : cap ≤ intMax) (a b c : Bool) (m0 : ts_hashmap_t)
    (hinit : initmap cap a b c = some m0) (ops : List MapOp) :
    (mapKeys (applyOps m0 ops)).Nodup :=
  wf_mapKeys_nodup (wf_applyOps (wf_initmap h1 h2 hinit) ops)

/-- C10: storing `INT_MAX` under an absent key is a real insertion (the
call returns the sentinel and `size` grows by one), yet a subsequent
`get` returns `INT_MAX` — exactly what `get` also returns for the absent
key, so through `get` alone the two situations are indistinguishable. -/
theorem c10_intmax_value_indistinguishable (m : ts_hashmap_t) (k : Int)
    (h1 : tableOk m) (h2 : k ∉ mapKeys m) :
    (put m k intMax true).2 = intMax ∧
    (put m k intMax true).1.size = m.size + 1 ∧
    (get ((put m k intMax true).1) k).2 = intMax ∧
    (get m k).2 = intMax := by
  have hb := not_mem_bucketOf h2
  obtain ⟨p1, p2⟩ := put_insert hb intMax
  exact ⟨p2, by rw [p1], get_snd_of_found (put_found h1 k intMax),
    get_snd_of_miss hb⟩

/-! ### concrete instantiations -/

/-- concrete canonical map of capacity 4 with empty buckets. -/
def mEx : ts_hashmap_t :=
  { capacity := 4, size := 0, numOps := 0, table := [[], [], [], []] }

/-- concrete canonical map of capacity 2 with empty buckets. -/
def mEx2 : ts_hashmap_t :=
  { capacity := 2, size := 0, numOps := 0, table := [[], []] }

/-- witness for C1 at a concrete map, key and value. -/
theorem c1_put_get_round_trip_witness :
    (get ((put mEx 3 99 true).1) 3).2 = 99 :=
  c1_put_get_round_trip mEx 3 99 (by decide)

/-- witness for C3 at the negative key −7 and capacity 4. -/
theorem c3_bucket_index_unsigned_mod_witness :
    bucketIndex (-7) 4 = toUInt (-7) % (4 : Int).toNat ∧
    bucketIndex (-7) 4 < (4 : Int).toNat ∧
    ((-7 : Int) < 0 → toUInt (-7) = ((-7 : Int) + 2 ^ 32).toNat) ∧
    ((0 : Int) ≤ -7 → toUInt (-7) = (-7 : Int).toNat) :=
  c3_bucket_index_unsigned_mod (-7) 4 (by decide) (by decide) (by decide)
    (by decide)

/-- witness for C4 on a concrete map and a concrete operation sequence. -/
theorem c4_numOps_counts_operations_witness :
    (applyOp mEx (MapOp.opGet 0)).numOps = mEx.numOps + 1 ∧
    (applyOps mEx2
      [MapOp.opPut 1 5 true, MapOp.opGet 1, MapOp.opDel 1]).numOps = 3 :=
  ⟨c4_numOps_counts_operations.1 mEx (MapOp.opGet 0),
   c4_numOps_counts_operations.2 2 true true true mEx2
     [MapOp.opPut 1 5 true, MapOp.opGet 1, MapOp.opDel 1] rfl⟩

/-- witness for C5 at a concrete map, key and two values. -/
theorem c5_put_overwrite_witness :
    (put ((put mEx 5 11 true).1) 5 22 true).2 = 11 ∧
    (get ((put ((put mEx 5 11 true).1) 5 22 true).1) 5).2 = 22 ∧
    (put ((put mEx 5 11 true).1) 5 22 true).1.size =
      ((put mEx 5 11 true).1).size :=
  c5_put_overwrite mEx 5 11 22 (by decide)

/-- witness for C6 at a concrete map, key and value. -/
theorem c6_put_delete_removes_witness :
    (del ((put mEx 9 7 true).1) 9).2 = 7 ∧
    (get ((del ((put mEx 9 7 true).1) 9).1) 9).2 = intMax ∧
    (del ((put mEx 9 7 true).1) 9).1.size =
      ((put mEx 9 7 true).1).size - 1 :=
  c6_put_delete_removes mEx 9 7 (by decide)

/-- witness for C7 at a concrete map and an absent key. -/
theorem c7_miss_returns_sentinel_witness :
    (get mEx 42).2 = intMax ∧ (get mEx 42).1.size = mEx.size ∧
    (get mEx 42).1.table = mEx.table ∧
    (del mEx 42).2 = intMax ∧ (del mEx 42).1.size = mEx.size ∧
    (del mEx 42).1.table = mEx.table ∧ intMax = 2 ^ 31 - 1 :=
  c7_miss_returns_sentinel mEx 42 (by decide)

/-- witness for C8 at a concrete map and an absent key. -/
theorem c8_put_allocation_failure_witness :
    (put mEx 6 33 false).2 = intMax ∧
    (put mEx 6 33 false).1.numOps = mEx.numOps + 1 ∧
    (put mEx 6 33 false).1.size = mEx.size ∧
    (put mEx 6 33 false).1.table = mEx.table :=
  c8_put_allocation_failure mEx 6 33 (by decide)

/-- witness for C9 on a concrete fresh map and operation sequence with a
colliding insert (keys 1 and 5 share bucket 1 at capacity 4). -/
theorem c9_no_duplicate_keys_witness :
    (mapKeys (applyOps mEx [MapOp.opPut 1 10 true, MapOp.opPut 5 20 true,
      MapOp.opGet 1, MapOp.opDel 1])).Nodup :=
  c9_no_duplicate_keys 4 (by decide) (by decide) true true true mEx rfl
    [MapOp.opPut 1 10 true, MapOp.opPut 5 20 true, MapOp.opGet 1,
      MapOp.opDel 1]

/-- witness for C10 at a concrete map and absent key. -/
theorem c10_intmax_value_indistinguishable_witness :
    (put mEx 8 intMax true).2 = intMax ∧
    (put mEx 8 intMax true).1.size = mEx.size + 1 ∧
    (get ((put mEx 8 intMax true).1) 8).2 = intMax ∧
    (get mEx 8).2 = intMax :=
  c10_intmax_value_indistinguishable mEx 8 (by decide) (by decide)

end TsHashmap
